import Mathlib

/-!
Verification of the video-splitter front end (a Tauri/React application).

Times are modelled as rational numbers (`ℚ`): the TypeScript code stores times
as JS numbers and the properties checked here are order/arithmetic facts that
do not depend on floating-point rounding.  Strings fed to the time parser are
modelled as `List Char`.  React `useState` cells touched by an event handler
are gathered into explicit state records, and each handler becomes a pure
function from the old state (plus its inputs) to the new state.
-/

namespace VideoSplitter

/-! ### Data model (src/hooks/useVideoSplit.ts) -/

/-- `SplitProgress` from useVideoSplit.ts. -/
structure SplitProgress where
  current_segment : ℤ
  total_segments : ℤ
  percentage : ℚ
  current_file : String
deriving DecidableEq

/-- `SplitResult` returned by the external split commands. -/
structure SplitResult where
  success : Bool
  output_files : List String
  error : Option String
deriving DecidableEq

/-- `TimeRange` (id, startTime, endTime).  The source uses UUID strings as
ids; here ids are natural numbers, only equality of ids is ever used. -/
structure TimeRange where
  id : ℕ
  startTime : ℚ
  endTime : ℚ
deriving DecidableEq

/-- One element of the payload sent to `split_video_by_ranges_command`. -/
structure RangePayload where
  start_seconds : ℚ
  end_seconds : ℚ
deriving DecidableEq

/-- The `useVideoSplit` state cells touched by the split handlers. -/
structure SplitState where
  isProcessing : Bool
  progress : Option SplitProgress
  result : Option SplitResult
  error : Option String
deriving DecidableEq

/-- JS `opt?.field || fallback`: `none` and the falsy value `0` select the
fallback, any other number is kept. -/
def jsOrElse (x : Option ℚ) (fallback : ℚ) : ℚ :=
  match x with
  | none => fallback
  | some v => if v = 0 then fallback else v

/-- JS `Math.ceil` on the rational model of JS numbers. -/
def jsCeil (q : ℚ) : ℤ := ⌈q⌉

/-- JS `Math.floor` on the rational model of JS numbers. -/
def jsFloor (q : ℚ) : ℤ := ⌊q⌋

/-- The placeholder file name put into the initial progress. -/
def preparingFile : String := "准备中..."

/-- The initial progress set by `splitVideo` (useVideoSplit.ts line 75):
`total_segments` is `Math.ceil(videoInfo?.duration || 0 / segmentDuration)`,
which by JS precedence is `Math.ceil(videoInfo?.duration || (0 / segmentDuration))`. -/
def initialIntervalProgress (videoDuration : Option ℚ) (segmentDuration : ℚ) : SplitProgress :=
  { current_segment := 0
    total_segments := jsCeil (jsOrElse videoDuration (0 / segmentDuration))
    percentage := 0
    current_file := preparingFile }

/-- The segment count the UI predicts (App.tsx:
`Math.ceil(videoInfo.duration / segmentDuration)`). -/
def predictedSegmentCount (duration segmentDuration : ℚ) : ℤ :=
  jsCeil (duration / segmentDuration)

/-- State update performed by `splitVideo` before invoking
`split_video_command` (useVideoSplit.ts lines 72-80). -/
def splitVideoStart (videoDuration : Option ℚ) (segmentDuration : ℚ)
    (s : SplitState) : SplitState :=
  { s with
    isProcessing := true
    error := none
    result := none
    progress := some (initialIntervalProgress videoDuration segmentDuration) }

/-- State update performed by `splitVideoByRanges` before invoking
`split_video_by_ranges_command` (useVideoSplit.ts lines 101-109). -/
def splitVideoByRangesStart (ranges : List TimeRange) (s : SplitState) : SplitState :=
  { s with
    isProcessing := true
    error := none
    result := none
    progress := some
      { current_segment := 0
        total_segments := (ranges.length : ℤ)
        percentage := 0
        current_file := preparingFile } }

/-- The payload built by `splitVideoByRanges` (useVideoSplit.ts lines 112-115):
`ranges.map(r => ({ start_seconds: r.startTime, end_seconds: r.endTime }))`. -/
def rangesPayload (ranges : List TimeRange) : List RangePayload :=
  ranges.map fun r => { start_seconds := r.startTime, end_seconds := r.endTime }

/-- The `try`/`catch`/`finally` tail shared verbatim by `splitVideo` and
`splitVideoByRanges`: on success the returned result is stored, on rejection
the error is stored, and in both cases `isProcessing` is reset to `false`. -/
def splitSettle (outcome : Except String SplitResult) (s : SplitState) : SplitState :=
  match outcome with
  | .ok r => { s with result := some r, isProcessing := false }
  | .error e => { s with error := some e, isProcessing := false }

/-- The split-button guard of the App (part_001 lines 107-108). -/
def canSplit (selectedFile outputDir videoInfo isProcessing isLoading : Bool)
    (splitModeInterval : Bool) (segmentDuration : ℚ) (timeRangesLen : ℕ) : Bool :=
  selectedFile && outputDir && videoInfo && !isProcessing && !isLoading &&
    (if splitModeInterval then decide (0 < segmentDuration) else decide (0 < timeRangesLen))

/-- The App renders a non-null split error as `❌ 错误: {error}` (part_001
lines 289-296). -/
def appErrorText (s : SplitState) : Option String :=
  s.error.map fun e => "❌ 错误: " ++ e

/-! ### Preview source selection (src/hooks/usePreviewSource.ts) -/

/-- `PreviewSourceKind`. -/
inductive PreviewSourceKind where
  | file
  | hls
deriving DecidableEq

/-- Kind normalization in `usePreviewSource` (usePreviewSource.ts line 205):
`const kind = result.kind === 'hls' ? 'hls' : 'file'`. -/
def mapPreviewKind (kind : String) : PreviewSourceKind :=
  if kind = "hls" then .hls else .file

/-! ### Windowed HLS playback math (TimeRangeEditor, part_009 / VideoPlayer, part_005) -/

def HLS_SEGMENT_SECONDS : ℚ := 2

def HLS_WINDOW_SECONDS : ℚ := 10 * 60

def HLS_WINDOW_PADDING : ℚ := 0

/-- `clampTime` (part_009 lines 468-473, identical in part_005). -/
def clampTime (timelineDuration time : ℚ) : ℚ :=
  if 0 < timelineDuration then min (max time 0) timelineDuration
  else max time 0

/-- `computeWindowStart` (part_009 lines 475-482, identical in part_005). -/
def computeWindowStart (timelineDuration time : ℚ) : ℚ :=
  let padding := min HLS_WINDOW_PADDING (HLS_WINDOW_SECONDS / 2)
  let maxStart := if 0 < timelineDuration
    then max 0 (timelineDuration - HLS_WINDOW_SECONDS)
    else max 0 (time - padding)
  let rawStart := min (max (time - padding) 0) maxStart
  ((jsFloor (rawStart / HLS_SEGMENT_SECONDS) : ℤ) : ℚ) * HLS_SEGMENT_SECONDS

/-- The state cells read and written by `seekToAbsolute`. -/
structure SeekState where
  windowStart : ℚ
  pendingSeek : Option ℚ
  currentTime : ℚ
  isLoading : Bool
deriving DecidableEq

/-- Result of one `seekToAbsolute` call: the boolean it returns, the updated
state cells, and the value written to the media element's `currentTime`
(if any). -/
structure SeekOutcome where
  deferred : Bool
  state : SeekState
  mediaTime : Option ℚ
deriving DecidableEq

/-- `seekToAbsolute` (part_009 lines 495-530). -/
def seekToAbsolute (timelineDuration : ℚ) (source : Option PreviewSourceKind)
    (s : SeekState) (time : ℚ) : SeekOutcome :=
  let target := clampTime timelineDuration time
  match source with
  | none =>
      { deferred := true
        state :=
          { windowStart := computeWindowStart timelineDuration target
            pendingSeek := some target
            currentTime := target
            isLoading := true }
        mediaTime := none }
  | some .file =>
      { deferred := false
        state := { s with currentTime := target }
        mediaTime := some target }
  | some .hls =>
      if s.windowStart ≤ target ∧ target ≤ s.windowStart + HLS_WINDOW_SECONDS then
        { deferred := false
          state := { s with currentTime := target }
          mediaTime := some (target - s.windowStart) }
      else
        { deferred := true
          state :=
            { windowStart := computeWindowStart timelineDuration target
              pendingSeek := some target
              currentTime := target
              isLoading := true }
          mediaTime := none }

/-! ### Playback error mapping (part_005 lines 300-323, part_009 lines 667-690) -/

def MEDIA_ERR_ABORTED : ℕ := 1

def MEDIA_ERR_NETWORK : ℕ := 2

def MEDIA_ERR_DECODE : ℕ := 3

def MEDIA_ERR_SRC_NOT_SUPPORTED : ℕ := 4

/-- The message chosen by `handleError` as a function of
`videoRef.current?.error?.code` (`none` models an absent media error). -/
def mediaErrorMessage (code : Option ℕ) : String :=
  match code with
  | none => "视频加载失败"
  | some c =>
    if c = MEDIA_ERR_ABORTED then "视频加载被中断"
    else if c = MEDIA_ERR_NETWORK then "网络错误导致视频加载失败"
    else if c = MEDIA_ERR_DECODE then "视频解码失败，格式可能不支持"
    else if c = MEDIA_ERR_SRC_NOT_SUPPORTED then "视频格式不支持或文件不存在"
    else "视频加载失败"

/-- Effect of `handleError`: the error text set and the `isLoading` value
after the handler (always cleared to `false`). -/
structure ErrorEffect where
  message : String
  isLoading : Bool
deriving DecidableEq

/-- `handleError` (part_005 lines 300-323; the TimeRangeEditor copy in
part_009 lines 667-690 is identical). -/
def handleError (code : Option ℕ) : ErrorEffect :=
  { message := mediaErrorMessage code, isLoading := false }

/-! ### Range-list operations (part_001, part_006, part_008, part_009) -/

/-- `handleAddRange` in the App (part_001 lines 62-64): append. -/
def handleAddRange (ranges : List TimeRange) (r : TimeRange) : List TimeRange :=
  ranges ++ [r]

/-- `handleUpdateRange` in the App (part_001 lines 66-68), specialised to a
`{ startTime: t }` patch, which is what the editor's `handleSetStart` sends
while editing (part_009 lines 740-746). -/
def onUpdateRangeStart (ranges : List TimeRange) (id : ℕ) (t : ℚ) : List TimeRange :=
  ranges.map fun r => if r.id = id then { r with startTime := t } else r

/-- `handleUpdateRange` specialised to an `{ endTime: t }` patch, which is
what the editor's `handleSetEnd` sends while editing (part_009 lines 748-751). -/
def onUpdateRangeEnd (ranges : List TimeRange) (id : ℕ) (t : ℚ) : List TimeRange :=
  ranges.map fun r => if r.id = id then { r with endTime := t } else r

/-- `handleSetEnd`, add path (part_009 lines 752-763): with a pending start
point, order the two marks and add the range only when end > start. -/
def handleSetEndAdd (newId : ℕ) (pendingStart currentTime : ℚ)
    (ranges : List TimeRange) : List TimeRange :=
  let start := min pendingStart currentTime
  let stop := max pendingStart currentTime
  if start < stop then
    handleAddRange ranges { id := newId, startTime := start, endTime := stop }
  else ranges

/-- A range of the standalone `RangeSelector` (part_006); its `end` field is
called `stop` here because `end` is reserved in Lean. -/
structure SelectorRange where
  id : ℕ
  start : ℚ
  stop : ℚ
deriving DecidableEq

/-- `handleAdd` of the RangeSelector (part_006 lines 35-49): refuse when
`end <= start`, otherwise append and re-sort by start. -/
def rangeSelectorAdd (newId : ℕ) (ranges : List SelectorRange)
    (start stop : ℚ) : List SelectorRange :=
  if stop ≤ start then ranges
  else List.insertionSort (fun a b => a.start ≤ b.start)
    (ranges ++ [{ id := newId, start := start, stop := stop }])

/-- The numeric validation applied to one parsed batch line
(part_008 lines 181-232): reject `end <= start`, optionally clamp both marks
to `[0, duration]`, reject lines beyond the video duration, and reject again
if clamping collapsed the range.  Returns the admitted pair. -/
def batchValidateLine (clamp : Bool) (duration : ℚ) (start stop : ℚ) :
    Option (ℚ × ℚ) :=
  if stop ≤ start then none
  else
    let finalStart := if clamp ∧ 0 < duration then min (max start 0) duration else start
    let finalEnd := if clamp ∧ 0 < duration then min (max stop 0) duration else stop
    if 0 < duration ∧ (duration ≤ finalStart ∨ duration < finalEnd) then none
    else if finalEnd ≤ finalStart then none
    else some (finalStart, finalEnd)

/-- `ranges` property invariant: every held range has end strictly after
start. -/
def RangesValid (l : List TimeRange) : Prop :=
  ∀ r ∈ l, r.startTime < r.endTime

instance : DecidablePred RangesValid := fun l =>
  inferInstanceAs (Decidable (∀ r ∈ l, r.startTime < r.endTime))

/-! ### mergeRanges (part_008 lines 641-653) -/

/-- The `{ startSeconds, endSeconds }` records `mergeRanges` operates on. -/
structure RangeSec where
  startSeconds : ℚ
  endSeconds : ℚ
deriving DecidableEq

/-- The sort `[...items].sort((a, b) => a.startSeconds - b.startSeconds)`,
modelled by a stable sort on the same key. -/
def sortByStart (items : List RangeSec) : List RangeSec :=
  List.insertionSort (fun a b => a.startSeconds ≤ b.startSeconds) items

/-- The merging loop of `mergeRanges` (part_008 lines 644-651).  The
accumulator is kept reversed so its head is the `merged[merged.length - 1]`
the source mutates. -/
def mergeLoop : List RangeSec → List RangeSec → List RangeSec
  | acc, [] => acc.reverse
  | [], r :: rest => mergeLoop [r] rest
  | last :: accTail, r :: rest =>
    if r.startSeconds ≤ last.endSeconds then
      mergeLoop ({ last with endSeconds := max last.endSeconds r.endSeconds } :: accTail) rest
    else
      mergeLoop (r :: last :: accTail) rest

/-- `mergeRanges` (part_008 lines 641-653). -/
def mergeRanges (items : List RangeSec) : List RangeSec :=
  mergeLoop [] (sortByStart items)

/-- A time point is covered by a range list when it lies in one of its
closed intervals. -/
def covers (l : List RangeSec) (x : ℚ) : Prop :=
  ∃ r ∈ l, r.startSeconds ≤ x ∧ x ≤ r.endSeconds

/-! ### Time formatting and parsing (part_008 lines 28-33 and 110-139) -/

/-- The character for a single decimal digit. -/
def digitChar (d : ℕ) : Char := Char.ofNat (48 + d)

/-- Decimal rendering of a natural number (JS `Number.prototype.toString`),
most significant digit first. -/
def natDigits (n : ℕ) : List Char :=
  if _ : n < 10 then [digitChar n]
  else natDigits (n / 10) ++ [digitChar (n % 10)]
decreasing_by exact Nat.div_lt_self (by omega) (by omega)

/-- `padStart(2, '0')`. -/
def padTwo (s : List Char) : List Char :=
  List.replicate (2 - s.length) '0' ++ s

/-- `formatTime` (part_008 lines 28-33) on whole seconds. -/
def formatTime (n : ℕ) : List Char :=
  let hrs := n / 3600
  let mins := (n % 3600) / 60
  let secs := n % 60
  padTwo (natDigits hrs) ++ ':' :: (padTwo (natDigits mins) ++ ':' :: padTwo (natDigits secs))

/-- Numeric value of a decimal digit character. -/
def digitVal (c : Char) : ℕ := c.toNat - 48

/-- Accumulating decimal evaluation; any non-digit character is NaN (`none`). -/
def jsNumberAux : ℕ → List Char → Option ℕ
  | acc, [] => some acc
  | acc, c :: rest => if c.isDigit then jsNumberAux (acc * 10 + digitVal c) rest else none

/-- JS `Number(...)` restricted to the trimmed fragments this parser feeds
it: the empty string converts to 0, a string of decimal digits converts to
its value, and anything containing another character is NaN (`none`).
(A fragment JS would read as a negative or fractional number is `none` here;
`parseTimeToSeconds` rejects those fragments either way, so the final parse
result is unchanged.) -/
def jsNumber (s : List Char) : Option ℕ := jsNumberAux 0 s

/-- `String.prototype.trim`, for the space characters that can appear in the
inputs considered here. -/
def trimChars (s : List Char) : List Char :=
  ((s.dropWhile (· = ' ')).reverse.dropWhile (· = ' ')).reverse

/-- `split(':')`. -/
def splitOnColon : List Char → List (List Char)
  | [] => [[]]
  | c :: rest =>
    if c = ':' then [] :: splitOnColon rest
    else
      match splitOnColon rest with
      | [] => [[c]]
      | p :: ps => (c :: p) :: ps

/-- `parseTimeToSeconds` (part_008 lines 110-139).  The source first maps
`Number` over all parts and rejects when any is NaN or negative, then
destructures by count; propagating `none` through the destructuring is
observationally the same check. -/
def parseTimeToSeconds (input : List Char) : Option ℕ :=
  let cleaned := trimChars input
  if cleaned.isEmpty then none
  else
    let parts := (splitOnColon cleaned).map trimChars
    if parts.length = 0 ∨ 3 < parts.length then none
    else
      match parts with
      | [p] => jsNumber p
      | [p1, p2] =>
        match jsNumber p1, jsNumber p2 with
        | some m, some s => some (m * 60 + s)
        | _, _ => none
      | [p1, p2, p3] =>
        match jsNumber p1, jsNumber p2, jsNumber p3 with
        | some h, some m, some s => some (h * 3600 + m * 60 + s)
        | _, _, _ => none
      | _ => none

/-! ### Helper lemmas -/

theorem clampTime_nonneg (d t : ℚ) : 0 ≤ clampTime d t := by
  unfold clampTime
  split_ifs with h
  · exact le_min (le_max_right t 0) (le_of_lt h)
  · exact le_max_right t 0

theorem clampTime_eq_of_bounds (d t : ℚ) (hd : 0 < d) (h0 : 0 ≤ t) (h1 : t ≤ d) :
    clampTime d t = t := by
  unfold clampTime
  rw [if_pos hd, max_eq_left h0, min_eq_left h1]

/-! ### C1 — range-list validity -/

/-- C1 counterexample: the claim says editing an existing range's start or
end keeps end > start, but `handleSetEnd` in edit mode stores the current
time unconditionally: editing the range (5, 10) with the playhead at 3 yields
the range (5, 3). -/
theorem C1_counterexample :
    RangesValid [{ id := 0, startTime := 5, endTime := 10 }]
    ∧ ¬ RangesValid (onUpdateRangeEnd [{ id := 0, startTime := 5, endTime := 10 }] 0 3) := by
  constructor <;> decide

/-- C1 (amended): every range admitted by the set-start/set-end workflow, the
range selector, or batch-import validation has end strictly greater than
start; editing an existing range's start or end, however, stores the current
time without validation and can produce a range with end ≤ start. -/
theorem C1_range_validation :
    (∀ (newId : ℕ) (p c : ℚ) (ranges : List TimeRange),
      RangesValid ranges → RangesValid (handleSetEndAdd newId p c ranges))
    ∧ (∀ (newId : ℕ) (ranges : List SelectorRange) (a b : ℚ),
      (∀ r ∈ ranges, r.start < r.stop) →
      ∀ r ∈ rangeSelectorAdd newId ranges a b, r.start < r.stop)
    ∧ (∀ (clamp : Bool) (duration a b a2 b2 : ℚ),
      batchValidateLine clamp duration a b = some (a2, b2) → a2 < b2)
    ∧ (RangesValid [{ id := 7, startTime := 5, endTime := 10 }]
        ∧ ¬ RangesValid (onUpdateRangeEnd [{ id := 7, startTime := 5, endTime := 10 }] 7 3)
        ∧ ¬ RangesValid (onUpdateRangeStart [{ id := 7, startTime := 5, endTime := 10 }] 7 12)) := by
  refine ⟨?_, ?_, ?_, by decide, by decide, by decide⟩
  · intro newId p c ranges hv
    simp only [handleSetEndAdd, handleAddRange]
    split_ifs with h
    · intro r hr
      rcases List.mem_append.mp hr with hr | hr
      · exact hv r hr
      · simp only [List.mem_singleton] at hr
        subst hr
        exact h
    · exact hv
  · intro newId ranges a b hv r hr
    unfold rangeSelectorAdd at hr
    split_ifs at hr with h
    · exact hv r hr
    · have hmem := (List.perm_insertionSort
        (fun x y : SelectorRange => x.start ≤ y.start) _).mem_iff.mp hr
      rcases List.mem_append.mp hmem with hm | hm
      · exact hv r hm
      · simp only [List.mem_singleton] at hm
        subst hm
        exact lt_of_not_ge h
  · intro clamp duration a b a2 b2 hsome
    unfold batchValidateLine at hsome
    by_cases h1 : b ≤ a
    · rw [if_pos h1] at hsome
      exact absurd hsome (by simp)
    · rw [if_neg h1] at hsome
      by_cases hc : clamp = true ∧ 0 < duration <;>
        simp only [hc, if_true, if_false] at hsome <;>
        split_ifs at hsome <;>
        first
          | exact Option.noConfusion hsome
          | (simp only [Option.some.injEq, Prod.mk.injEq] at hsome
             obtain ⟨ha, hb⟩ := hsome
             subst ha
             subst hb
             exact lt_of_not_ge (by assumption))

/-- C1 witness: the add workflow applied to an empty list with marks 2 and 7
yields a valid list. -/
theorem C1_witness : RangesValid (handleSetEndAdd 1 2 7 []) :=
  C1_range_validation.1 1 2 7 [] (by decide)

/-! ### C2 — single outstanding request -/

/-- C2: both split entry points set `isProcessing` before invoking the
external command, the split button guard is false whenever `isProcessing` is
true, and settling (success or failure) resets `isProcessing`. -/
theorem C2_single_outstanding_request :
    (∀ (d : Option ℚ) (seg : ℚ) (s : SplitState),
      (splitVideoStart d seg s).isProcessing = true)
    ∧ (∀ (rs : List TimeRange) (s : SplitState),
      (splitVideoByRangesStart rs s).isProcessing = true)
    ∧ (∀ (sel out vi load mi : Bool) (sd : ℚ) (nr : ℕ),
      canSplit sel out vi true load mi sd nr = false)
    ∧ (∀ (o : Except String SplitResult) (s : SplitState),
      (splitSettle o s).isProcessing = false) := by
  refine ⟨fun _ _ _ => rfl, fun _ _ => rfl, ?_, ?_⟩
  · intro sel out vi load mi sd nr
    simp [canSplit]
  · intro o s
    cases o <;> rfl

/-! ### C3 — payload shape and result passthrough -/

/-- C3: the payload sent to `split_video_by_ranges_command` has the same
length and order as the range list, element `i` carrying `startTime` as
`start_seconds` and `endTime` as `end_seconds`; the returned `SplitResult`
is stored unchanged. -/
theorem C3_ranges_payload_passthrough :
    (∀ ranges : List TimeRange, (rangesPayload ranges).length = ranges.length)
    ∧ (∀ (ranges : List TimeRange) (i : ℕ),
      (rangesPayload ranges)[i]? = ranges[i]?.map
        fun r => { start_seconds := r.startTime, end_seconds := r.endTime })
    ∧ (∀ (res : SplitResult) (s : SplitState),
      (splitSettle (.ok res) s).result = some res) := by
  refine ⟨fun ranges => ?_, fun ranges i => ?_, fun res s => rfl⟩
  · simp [rangesPayload]
  · simp [rangesPayload]

/-! ### C4 — initial total_segments (operator-precedence bug) -/

/-- C4: with a loaded video of duration 10 and requested segment duration 5,
the initial progress carries `total_segments = 10` (the ceiling of the plain
duration, because `Math.ceil(videoInfo?.duration || 0 / segmentDuration)`
binds as `duration || (0 / segmentDuration)`), while the UI predicts
`Math.ceil(10 / 5) = 2` segments. -/
theorem C4_initial_total_segments :
    (initialIntervalProgress (some 10) 5).total_segments = 10
    ∧ predictedSegmentCount 10 5 = 2
    ∧ (initialIntervalProgress (some 10) 5).total_segments ≠ predictedSegmentCount 10 5 := by
  have h1 : (initialIntervalProgress (some 10) 5).total_segments = 10 := by decide
  have h2 : predictedSegmentCount 10 5 = 2 := by
    show jsCeil ((10 : ℚ) / 5) = 2
    rw [show ((10 : ℚ) / 5) = 2 from by norm_num]
    decide
  exact ⟨h1, h2, by rw [h1, h2]; decide⟩

/-! ### C5 — error passthrough and state clearing -/

/-- C5: on command rejection the thrown message is stored verbatim as the
error state and rendered in the error banner, the result state stays `none`,
and `isProcessing` returns to false; both split entry points clear the
previous error and result when they start. -/
theorem C5_error_passthrough :
    (∀ (d : Option ℚ) (seg : ℚ) (s : SplitState) (e : String),
      (splitSettle (.error e) (splitVideoStart d seg s)).error = some e
      ∧ (splitSettle (.error e) (splitVideoStart d seg s)).result = none
      ∧ (splitSettle (.error e) (splitVideoStart d seg s)).isProcessing = false
      ∧ appErrorText (splitSettle (.error e) (splitVideoStart d seg s)) =
          some ("❌ 错误: " ++ e))
    ∧ (∀ (rs : List TimeRange) (s : SplitState) (e : String),
      (splitSettle (.error e) (splitVideoByRangesStart rs s)).error = some e
      ∧ (splitSettle (.error e) (splitVideoByRangesStart rs s)).result = none
      ∧ (splitSettle (.error e) (splitVideoByRangesStart rs s)).isProcessing = false)
    ∧ (∀ (d : Option ℚ) (seg : ℚ) (s : SplitState),
      (splitVideoStart d seg s).error = none ∧ (splitVideoStart d seg s).result = none)
    ∧ (∀ (rs : List TimeRange) (s : SplitState),
      (splitVideoByRangesStart rs s).error = none
      ∧ (splitVideoByRangesStart rs s).result = none) := by
  refine ⟨?_, ?_, ?_, ?_⟩ <;> intros <;>
    simp [splitSettle, splitVideoStart, splitVideoByRangesStart, appErrorText]

/-! ### C7 — media-error message mapping -/

/-- C7: the playback error message is a function of the media-error code
alone: each of the four standard codes has its own fixed message, any other
or absent code yields the generic load-failure message, the five messages
are pairwise distinct, and the handler always clears the loading state. -/
theorem C7_media_error_mapping :
    mediaErrorMessage (some MEDIA_ERR_ABORTED) = "视频加载被中断"
    ∧ mediaErrorMessage (some MEDIA_ERR_NETWORK) = "网络错误导致视频加载失败"
    ∧ mediaErrorMessage (some MEDIA_ERR_DECODE) = "视频解码失败，格式可能不支持"
    ∧ mediaErrorMessage (some MEDIA_ERR_SRC_NOT_SUPPORTED) = "视频格式不支持或文件不存在"
    ∧ (∀ c : ℕ, c ≠ MEDIA_ERR_ABORTED → c ≠ MEDIA_ERR_NETWORK → c ≠ MEDIA_ERR_DECODE →
        c ≠ MEDIA_ERR_SRC_NOT_SUPPORTED → mediaErrorMessage (some c) = "视频加载失败")
    ∧ mediaErrorMessage none = "视频加载失败"
    ∧ List.Pairwise (fun a b => a ≠ b)
        ["视频加载被中断", "网络错误导致视频加载失败", "视频解码失败，格式可能不支持",
         "视频格式不支持或文件不存在", "视频加载失败"]
    ∧ (∀ code : Option ℕ, (handleError code).isLoading = false
        ∧ (handleError code).message = mediaErrorMessage code) := by
  refine ⟨rfl, rfl, rfl, rfl, ?_, rfl, by decide, fun code => ⟨rfl, rfl⟩⟩
  intro c h1 h2 h3 h4
  simp only [mediaErrorMessage, if_neg h1, if_neg h2, if_neg h3, if_neg h4]

/-- C7 witness: the unused code 7 maps to the generic message. -/
theorem C7_witness : mediaErrorMessage (some 7) = "视频加载失败" :=
  C7_media_error_mapping.2.2.2.2.1 7 (by decide) (by decide) (by decide) (by decide)

/-! ### C6 — preview kind selection and windowed seeking -/

/-- C6: any prepared-source kind other than `hls` plays as a direct file;
for an HLS source, a seek target outside `[windowStart, windowStart + 600]`
recomputes the window start, records the target as a pending seek, enters
loading state and defers (returns true), while a target inside the window
sets the media time to `target - windowStart` and returns false leaving
window, pending seek, and loading state untouched. -/
theorem C6_preview_kind_and_windowed_seek
    (kind : String) (timelineDuration time : ℚ) (s : SeekState)
    (hk : kind ≠ "hls") (hd : 0 < timelineDuration)
    (h0 : 0 ≤ time) (h1 : time ≤ timelineDuration) :
    mapPreviewKind kind = .file
    ∧ (time < s.windowStart ∨ s.windowStart + 600 < time →
        seekToAbsolute timelineDuration (some .hls) s time =
          { deferred := true
            state :=
              { windowStart := computeWindowStart timelineDuration time
                pendingSeek := some time
                currentTime := time
                isLoading := true }
            mediaTime := none })
    ∧ (s.windowStart ≤ time → time ≤ s.windowStart + 600 →
        seekToAbsolute timelineDuration (some .hls) s time =
          { deferred := false
            state := { s with currentTime := time }
            mediaTime := some (time - s.windowStart) }) := by
  have hclamp : clampTime timelineDuration time = time :=
    clampTime_eq_of_bounds _ _ hd h0 h1
  have hwin : HLS_WINDOW_SECONDS = 600 := by norm_num [HLS_WINDOW_SECONDS]
  refine ⟨?_, ?_, ?_⟩
  · unfold mapPreviewKind
    rw [if_neg hk]
  · intro hout
    simp only [seekToAbsolute, hclamp, hwin]
    rw [if_neg]
    rintro ⟨hge, hle⟩
    rcases hout with hout | hout
    · exact absurd hge (not_le_of_lt hout)
    · exact absurd hle (not_le_of_lt hout)
  · intro hge hle
    simp only [seekToAbsolute, hclamp, hwin]
    rw [if_pos ⟨hge, hle⟩]

/-- C6 witness: with a 1000-second video, current window start 0 and a seek
to 700 (outside the 600-second window), the seek defers and re-windows; the
kind string "file" maps to direct playback. -/
theorem C6_witness :
    mapPreviewKind "file" = .file
    ∧ seekToAbsolute 1000 (some .hls)
        { windowStart := 0, pendingSeek := none, currentTime := 0, isLoading := false } 700 =
        { deferred := true
          state :=
            { windowStart := computeWindowStart 1000 700
              pendingSeek := some 700
              currentTime := 700
              isLoading := true }
          mediaTime := none } := by
  have h := C6_preview_kind_and_windowed_seek "file" 1000 700
    { windowStart := 0, pendingSeek := none, currentTime := 0, isLoading := false }
    (by decide) (by norm_num) (by norm_num) (by norm_num)
  exact ⟨h.1, h.2.1 (by norm_num)⟩

/-! ### C10 — window-start invariants -/

/-- C10: for every seek target, `computeWindowStart` of the clamped target
is a nonnegative integer multiple of the 2-second HLS segment length, never
exceeds the clamped target, and when the duration is positive never exceeds
`max 0 (duration - 600)`. -/
theorem C10_window_start_bounds (timelineDuration time : ℚ) :
    (∃ k : ℕ, computeWindowStart timelineDuration (clampTime timelineDuration time)
        = 2 * (k : ℚ))
    ∧ computeWindowStart timelineDuration (clampTime timelineDuration time)
        ≤ clampTime timelineDuration time
    ∧ (0 < timelineDuration →
        computeWindowStart timelineDuration (clampTime timelineDuration time)
          ≤ max 0 (timelineDuration - 600)) := by
  have ht : 0 ≤ clampTime timelineDuration time := clampTime_nonneg _ _
  set t := clampTime timelineDuration time with hT
  have hpad : min HLS_WINDOW_PADDING (HLS_WINDOW_SECONDS / 2) = 0 := by
    norm_num [HLS_WINDOW_PADDING, HLS_WINDOW_SECONDS]
  have hw : computeWindowStart timelineDuration t =
      ((⌊(min t (if 0 < timelineDuration
          then max 0 (timelineDuration - HLS_WINDOW_SECONDS)
          else max 0 t)) / 2⌋ : ℤ) : ℚ) * 2 := by
    unfold computeWindowStart jsFloor
    simp only [hpad, sub_zero, HLS_SEGMENT_SECONDS]
    rw [max_eq_left ht]
  set maxStart := if 0 < timelineDuration
    then max 0 (timelineDuration - HLS_WINDOW_SECONDS)
    else max 0 t with hMS
  have hms_nonneg : 0 ≤ maxStart := by
    rw [hMS]
    split_ifs
    · exact le_max_left _ _
    · exact le_max_left _ _
  have hraw_nonneg : 0 ≤ min t maxStart := le_min ht hms_nonneg
  have hfloor_le : ((⌊(min t maxStart) / 2⌋ : ℤ) : ℚ) ≤ (min t maxStart) / 2 :=
    Int.floor_le _
  have hfloor_nonneg : (0 : ℤ) ≤ ⌊(min t maxStart) / 2⌋ :=
    Int.floor_nonneg.mpr (by positivity)
  refine ⟨⟨(⌊(min t maxStart) / 2⌋).toNat, ?_⟩, ?_, ?_⟩
  · rw [hw]
    have hc : ((⌊(t ⊓ maxStart) / 2⌋.toNat : ℕ) : ℚ) = ((⌊(t ⊓ maxStart) / 2⌋ : ℤ) : ℚ) := by
      exact_mod_cast Int.toNat_of_nonneg hfloor_nonneg
    rw [hc]
    ring
  · rw [hw]
    have : (min t maxStart) ≤ t := min_le_left _ _
    nlinarith [hfloor_le]
  · intro hdpos
    rw [hw]
    have h600 : HLS_WINDOW_SECONDS = 600 := by norm_num [HLS_WINDOW_SECONDS]
    have hms_eq : maxStart = max 0 (timelineDuration - 600) := by
      rw [hMS, if_pos hdpos, h600]
    have : (min t maxStart) ≤ maxStart := min_le_right _ _
    rw [← hms_eq]
    nlinarith [hfloor_le]

/-- C10 witness: duration 700, raw target 650: the window start is clamped
to the tail window and bounded by the target. -/
theorem C10_witness :
    computeWindowStart 700 (clampTime 700 650) ≤ max 0 (700 - 600)
    ∧ computeWindowStart 700 (clampTime 700 650) ≤ clampTime 700 650 :=
  ⟨(C10_window_start_bounds 700 650).2.2 (by norm_num),
   (C10_window_start_bounds 700 650).2.1⟩

/-! ### C9 — mergeRanges -/

instance : IsTotal RangeSec (fun a b => a.startSeconds ≤ b.startSeconds) :=
  ⟨fun a b => le_total a.startSeconds b.startSeconds⟩

instance : IsTrans RangeSec (fun a b => a.startSeconds ≤ b.startSeconds) :=
  ⟨fun _ _ _ h h2 => le_trans h h2⟩

theorem mergeLoop_nil (acc : List RangeSec) : mergeLoop acc [] = acc.reverse := by
  cases acc <;> rfl

theorem mergeLoop_nil_cons (r : RangeSec) (rest : List RangeSec) :
    mergeLoop [] (r :: rest) = mergeLoop [r] rest := rfl

theorem mergeLoop_cons_cons (last : RangeSec) (accTail : List RangeSec)
    (r : RangeSec) (rest : List RangeSec) :
    mergeLoop (last :: accTail) (r :: rest) =
      if r.startSeconds ≤ last.endSeconds then
        mergeLoop ({ last with endSeconds := max last.endSeconds r.endSeconds } :: accTail) rest
      else mergeLoop (r :: last :: accTail) rest := rfl

theorem covers_nil (x : ℚ) : ¬ covers [] x := by
  rintro ⟨r, hr, _⟩
  exact List.not_mem_nil r hr

theorem covers_cons (r : RangeSec) (l : List RangeSec) (x : ℚ) :
    covers (r :: l) x ↔ (r.startSeconds ≤ x ∧ x ≤ r.endSeconds) ∨ covers l x := by
  constructor
  · rintro ⟨q, hq, hin⟩
    rcases List.mem_cons.mp hq with rfl | hq
    · exact Or.inl hin
    · exact Or.inr ⟨q, hq, hin⟩
  · rintro (hin | ⟨q, hq, hin⟩)
    · exact ⟨r, List.mem_cons_self _ _, hin⟩
    · exact ⟨q, List.mem_cons_of_mem _ hq, hin⟩

theorem covers_congr_mem {l1 l2 : List RangeSec} (h : ∀ r, r ∈ l1 ↔ r ∈ l2) (x : ℚ) :
    covers l1 x ↔ covers l2 x := by
  constructor <;> rintro ⟨r, hr, hin⟩
  · exact ⟨r, (h r).mp hr, hin⟩
  · exact ⟨r, (h r).mpr hr, hin⟩

theorem covers_reverse (l : List RangeSec) (x : ℚ) :
    covers l.reverse x ↔ covers l x :=
  covers_congr_mem (fun _ => List.mem_reverse) x

/-- Merging two closed intervals whose left endpoints are ordered and which
touch or overlap covers exactly their union. -/
theorem interval_merge_iff {a b c d x : ℚ} (hac : a ≤ c) (hcb : c ≤ b) :
    (a ≤ x ∧ x ≤ max b d) ↔ (a ≤ x ∧ x ≤ b) ∨ (c ≤ x ∧ x ≤ d) := by
  constructor
  · rintro ⟨h1, h2⟩
    by_cases hxb : x ≤ b
    · exact Or.inl ⟨h1, hxb⟩
    · rcases le_max_iff.mp h2 with h | h
      · exact absurd h hxb
      · exact Or.inr ⟨by linarith, h⟩
  · rintro (⟨h1, h2⟩ | ⟨h1, h2⟩)
    · exact ⟨h1, le_trans h2 (le_max_left _ _)⟩
    · exact ⟨le_trans hac h1, le_trans h2 (le_max_right _ _)⟩

/-- Invariant-carrying specification of the merging loop.  The accumulator
`acc` is reversed (head = most recent output range), its consecutive entries
are separated by strict gaps, all its entries are valid ranges, and its head
starts no later than anything still to be processed; the input `rest` is
sorted by start and all ranges in it are valid.  Then the loop output is
gap-separated, valid, and covers exactly the union of `acc` and `rest`. -/
theorem mergeLoop_spec (rest : List RangeSec) :
    ∀ acc : List RangeSec,
    List.Sorted (fun a b => a.startSeconds ≤ b.startSeconds) rest →
    (∀ r ∈ rest, r.startSeconds < r.endSeconds) →
    List.Chain' (fun a b => b.endSeconds < a.startSeconds) acc →
    (∀ r ∈ acc, r.startSeconds < r.endSeconds) →
    (∀ a ∈ acc.head?, ∀ r ∈ rest, a.startSeconds ≤ r.startSeconds) →
    List.Chain' (fun a b => a.endSeconds < b.startSeconds) (mergeLoop acc rest)
    ∧ (∀ r ∈ mergeLoop acc rest, r.startSeconds < r.endSeconds)
    ∧ (∀ x : ℚ, covers (mergeLoop acc rest) x ↔ covers acc x ∨ covers rest x) := by
  induction rest with
  | nil =>
    intro acc _ _ hchain haccv _
    rw [mergeLoop_nil]
    refine ⟨?_, ?_, ?_⟩
    · rw [List.chain'_reverse]
      exact hchain
    · intro r hr
      exact haccv r (List.mem_reverse.mp hr)
    · intro x
      rw [covers_reverse]
      constructor
      · exact Or.inl
      · rintro (h | h)
        · exact h
        · exact absurd h (covers_nil x)
  | cons r rest ih =>
    intro acc hsorted hrestv hchain haccv hhead
    have hr_le : ∀ b ∈ rest, r.startSeconds ≤ b.startSeconds :=
      (List.sorted_cons.mp hsorted).1
    have hsorted' : List.Sorted (fun a b => a.startSeconds ≤ b.startSeconds) rest :=
      (List.sorted_cons.mp hsorted).2
    have hrestv' : ∀ q ∈ rest, q.startSeconds < q.endSeconds :=
      fun q hq => hrestv q (List.mem_cons_of_mem _ hq)
    have hrv : r.startSeconds < r.endSeconds := hrestv r (List.mem_cons_self _ _)
    cases acc with
    | nil =>
      rw [mergeLoop_nil_cons]
      have h := ih [r] hsorted' hrestv' (List.chain'_singleton r)
        (by
          intro q hq
          rcases List.mem_singleton.mp hq with rfl
          exact hrv)
        (by
          intro a ha q hq
          rcases Option.mem_some_iff.mp ha with rfl
          exact hr_le q hq)
      refine ⟨h.1, h.2.1, ?_⟩
      intro x
      rw [h.2.2 x]
      simp only [covers_cons]
      have hnil := covers_nil x
      tauto
    | cons last accTail =>
      rw [mergeLoop_cons_cons]
      have hlast_le : ∀ q ∈ r :: rest, last.startSeconds ≤ q.startSeconds := by
        intro q hq
        exact hhead last rfl q hq
      by_cases hm : r.startSeconds ≤ last.endSeconds
      · rw [if_pos hm]
        set last2 : RangeSec :=
          { last with endSeconds := max last.endSeconds r.endSeconds } with hlast2
        have hchain2 : List.Chain' (fun a b => b.endSeconds < a.startSeconds)
            (last2 :: accTail) := by
          rw [List.chain'_cons'] at hchain ⊢
          exact ⟨hchain.1, hchain.2⟩
        have haccv2 : ∀ q ∈ last2 :: accTail, q.startSeconds < q.endSeconds := by
          intro q hq
          rcases List.mem_cons.mp hq with rfl | hq
          · exact lt_of_lt_of_le (haccv last (List.mem_cons_self _ _))
              (le_max_left _ _)
          · exact haccv q (List.mem_cons_of_mem _ hq)
        have hhead2 : ∀ a ∈ (last2 :: accTail).head?, ∀ q ∈ rest,
            a.startSeconds ≤ q.startSeconds := by
          intro a ha q hq
          rcases Option.mem_some_iff.mp ha with rfl
          exact hlast_le q (List.mem_cons_of_mem _ hq)
        have h := ih (last2 :: accTail) hsorted' hrestv' hchain2 haccv2 hhead2
        refine ⟨h.1, h.2.1, ?_⟩
        intro x
        rw [h.2.2 x]
        simp only [covers_cons]
        have hiv : (last2.startSeconds ≤ x ∧ x ≤ last2.endSeconds) ↔
            (last.startSeconds ≤ x ∧ x ≤ last.endSeconds)
            ∨ (r.startSeconds ≤ x ∧ x ≤ r.endSeconds) :=
          interval_merge_iff (hlast_le r (List.mem_cons_self _ _)) hm
        rw [hiv]
        tauto
      · rw [if_neg hm]
        have hgap : last.endSeconds < r.startSeconds := lt_of_not_ge hm
        have hchain2 : List.Chain' (fun a b => b.endSeconds < a.startSeconds)
            (r :: last :: accTail) := by
          rw [List.chain'_cons]
          exact ⟨hgap, hchain⟩
        have haccv2 : ∀ q ∈ r :: last :: accTail, q.startSeconds < q.endSeconds := by
          intro q hq
          rcases List.mem_cons.mp hq with rfl | hq
          · exact hrv
          · exact haccv q hq
        have hhead2 : ∀ a ∈ (r :: last :: accTail).head?, ∀ q ∈ rest,
            a.startSeconds ≤ q.startSeconds := by
          intro a ha q hq
          rcases Option.mem_some_iff.mp ha with rfl
          exact hr_le q hq
        have h := ih (r :: last :: accTail) hsorted' hrestv' hchain2 haccv2 hhead2
        refine ⟨h.1, h.2.1, ?_⟩
        intro x
        rw [h.2.2 x]
        simp only [covers_cons]
        constructor
        · rintro ((h2 | h2 | h2) | h2)
          · exact Or.inr (Or.inl h2)
          · exact Or.inl (Or.inl h2)
          · exact Or.inl (Or.inr h2)
          · exact Or.inr (Or.inr h2)
        · rintro ((h2 | h2) | h2 | h2)
          · exact Or.inl (Or.inr (Or.inl h2))
          · exact Or.inl (Or.inr (Or.inr h2))
          · exact Or.inl (Or.inl h2)
          · exact Or.inr h2

/-- In a gap-separated list of valid ranges, the head precedes everything
in the tail. -/
theorem gap_head_rel (t : List RangeSec) :
    ∀ a : RangeSec,
    List.Chain' (fun p q => p.endSeconds < q.startSeconds) (a :: t) →
    (∀ q ∈ a :: t, q.startSeconds < q.endSeconds) →
    ∀ b ∈ t, a.endSeconds < b.startSeconds := by
  induction t with
  | nil =>
    intro a _ _ b hb
    exact absurd hb (List.not_mem_nil b)
  | cons c t ih =>
    intro a hchain hv b hb
    rw [List.chain'_cons] at hchain
    rcases List.mem_cons.mp hb with rfl | hb
    · exact hchain.1
    · have hcb := ih c hchain.2 (fun q hq => hv q (List.mem_cons_of_mem _ hq)) b hb
      have hcv := hv c (List.mem_cons_of_mem _ (List.mem_cons_self _ _))
      exact lt_trans hchain.1 (lt_trans hcv hcb)

/-- A gap-separated list of valid ranges is pairwise gap-separated. -/
theorem chain'_gap_pairwise (l : List RangeSec)
    (hc : List.Chain' (fun p q => p.endSeconds < q.startSeconds) l)
    (hv : ∀ q ∈ l, q.startSeconds < q.endSeconds) :
    List.Pairwise (fun p q => p.endSeconds < q.startSeconds) l := by
  induction l with
  | nil => exact List.Pairwise.nil
  | cons a t ih =>
    refine List.Pairwise.cons ?_ (ih hc.tail (fun q hq => hv q (List.mem_cons_of_mem _ hq)))
    exact gap_head_rel t a hc hv

/-- C9: `mergeRanges` maps any list of valid ranges (start < end) to a list
that is sorted by ascending `startSeconds`, pairwise separated (each range's
start strictly exceeds every earlier range's end), contains only valid
ranges, and covers exactly the same set of time points. -/
theorem C9_mergeRanges_normalizes (items : List RangeSec)
    (h : ∀ r ∈ items, r.startSeconds < r.endSeconds) :
    List.Chain' (fun a b => a.endSeconds < b.startSeconds) (mergeRanges items)
    ∧ List.Pairwise (fun a b => a.endSeconds < b.startSeconds) (mergeRanges items)
    ∧ List.Sorted (fun a b => a.startSeconds ≤ b.startSeconds) (mergeRanges items)
    ∧ (∀ r ∈ mergeRanges items, r.startSeconds < r.endSeconds)
    ∧ (∀ x : ℚ, covers (mergeRanges items) x ↔ covers items x) := by
  have hperm := List.perm_insertionSort
    (fun a b : RangeSec => a.startSeconds ≤ b.startSeconds) items
  have hsorted : List.Sorted (fun a b : RangeSec => a.startSeconds ≤ b.startSeconds)
      (sortByStart items) :=
    List.sorted_insertionSort _ items
  have hsortv : ∀ r ∈ sortByStart items, r.startSeconds < r.endSeconds :=
    fun r hr => h r (hperm.mem_iff.mp hr)
  have hspec := mergeLoop_spec (sortByStart items) [] hsorted hsortv
    List.chain'_nil (fun r hr => absurd hr (List.not_mem_nil r))
    (fun a ha => absurd ha (by simp))
  have hchain : List.Chain' (fun a b => a.endSeconds < b.startSeconds) (mergeRanges items) :=
    hspec.1
  have hvalid : ∀ r ∈ mergeRanges items, r.startSeconds < r.endSeconds := hspec.2.1
  have hpair := chain'_gap_pairwise _ hchain hvalid
  refine ⟨hchain, hpair, ?_, hvalid, ?_⟩
  · exact hpair.imp_of_mem fun {a b} ha _ hab =>
      le_of_lt (lt_trans (hvalid a ha) hab)
  · intro x
    rw [show mergeRanges items = mergeLoop [] (sortByStart items) from rfl, hspec.2.2 x]
    constructor
    · rintro (hcov | hcov)
      · exact absurd hcov (covers_nil x)
      · exact (covers_congr_mem (fun r => hperm.mem_iff) x).mp hcov
    · intro hcov
      exact Or.inr ((covers_congr_mem (fun r => hperm.mem_iff) x).mpr hcov)

/-- C9 witness: merging the overlapping ranges (1,3), (2,5) and the separate
(7,8) yields a gap-separated, sorted, coverage-equal list. -/
theorem C9_witness :
    List.Chain' (fun a b => a.endSeconds < b.startSeconds)
      (mergeRanges [⟨1, 3⟩, ⟨2, 5⟩, ⟨7, 8⟩])
    ∧ (∀ r ∈ mergeRanges [⟨1, 3⟩, ⟨2, 5⟩, ⟨7, 8⟩], r.startSeconds < r.endSeconds)
    ∧ (∀ x : ℚ, covers (mergeRanges [⟨1, 3⟩, ⟨2, 5⟩, ⟨7, 8⟩]) x ↔
        covers [⟨1, 3⟩, ⟨2, 5⟩, ⟨7, 8⟩] x) := by
  have h := C9_mergeRanges_normalizes [⟨1, 3⟩, ⟨2, 5⟩, ⟨7, 8⟩] (by decide)
  exact ⟨h.1, h.2.2.2.1, h.2.2.2.2⟩

/-! ### C8 — formatTime/parseTimeToSeconds round trip -/

theorem digitChar_isDigit {d : ℕ} (hd : d < 10) : (digitChar d).isDigit = true := by
  interval_cases d <;> decide

theorem digitVal_digitChar {d : ℕ} (hd : d < 10) : digitVal (digitChar d) = d := by
  interval_cases d <;> decide

theorem isDigit_ne_colon {c : Char} (h : c.isDigit = true) : c ≠ ':' := by
  intro heq
  subst heq
  exact absurd h (by decide)

theorem isDigit_ne_space {c : Char} (h : c.isDigit = true) : c ≠ ' ' := by
  intro heq
  subst heq
  exact absurd h (by decide)

theorem natDigits_ne_nil (n : ℕ) : natDigits n ≠ [] := by
  rw [natDigits]
  split_ifs
  · simp
  · simp

theorem natDigits_digits (n : ℕ) : ∀ c ∈ natDigits n, c.isDigit = true := by
  induction n using Nat.strong_induction_on with
  | _ n ih =>
    rw [natDigits]
    split_ifs with h
    · intro c hc
      rw [List.mem_singleton] at hc
      subst hc
      exact digitChar_isDigit h
    · intro c hc
      rcases List.mem_append.mp hc with hc | hc
      · exact ih (n / 10) (Nat.div_lt_self (by omega) (by omega)) c hc
      · rw [List.mem_singleton] at hc
        subst hc
        exact digitChar_isDigit (Nat.mod_lt _ (by omega))

theorem padTwo_digits {l : List Char} (h : ∀ c ∈ l, c.isDigit = true) :
    ∀ c ∈ padTwo l, c.isDigit = true := by
  intro c hc
  rcases List.mem_append.mp hc with hc | hc
  · rw [List.eq_of_mem_replicate hc]
    decide
  · exact h c hc

theorem jsNumberAux_append (acc : ℕ) (l1 l2 : List Char) :
    jsNumberAux acc (l1 ++ l2) =
      (jsNumberAux acc l1).bind fun v => jsNumberAux v l2 := by
  induction l1 generalizing acc with
  | nil => rfl
  | cons c t ih =>
    simp only [List.cons_append, jsNumberAux]
    split_ifs with h
    · exact ih _
    · rfl

theorem jsNumberAux_natDigits (n : ℕ) :
    ∀ acc : ℕ, jsNumberAux acc (natDigits n) =
      some (acc * 10 ^ (natDigits n).length + n) := by
  induction n using Nat.strong_induction_on with
  | _ n ih =>
    intro acc
    rw [natDigits]
    split_ifs with h
    · simp only [jsNumberAux, digitChar_isDigit h, if_true,
        digitVal_digitChar h, List.length_singleton, pow_one]
    · have h10 : n % 10 < 10 := Nat.mod_lt _ (by omega)
      rw [jsNumberAux_append, ih (n / 10) (Nat.div_lt_self (by omega) (by omega)) acc]
      simp only [Option.some_bind, jsNumberAux, digitChar_isDigit h10, if_true,
        digitVal_digitChar h10, List.length_append, List.length_singleton]
      congr 1
      rw [pow_succ, ← Nat.mul_assoc]
      generalize acc * 10 ^ (natDigits (n / 10)).length = A
      omega

theorem jsNumber_replicate_zero (k : ℕ) (l : List Char) :
    jsNumber (List.replicate k '0' ++ l) = jsNumber l := by
  induction k with
  | zero => rfl
  | succ k ih =>
    show jsNumberAux 0 ('0' :: (List.replicate k '0' ++ l)) = _
    simp only [jsNumberAux]
    rw [if_pos (by decide)]
    have hz : 0 * 10 + digitVal '0' = 0 := by decide
    rw [hz]
    exact ih

theorem jsNumber_padTwo_natDigits (x : ℕ) : jsNumber (padTwo (natDigits x)) = some x := by
  unfold padTwo
  rw [jsNumber_replicate_zero]
  unfold jsNumber
  rw [jsNumberAux_natDigits x 0]
  simp

theorem splitOnColon_no_colon (a : List Char) (h : ':' ∉ a) : splitOnColon a = [a] := by
  induction a with
  | nil => rfl
  | cons c t ih =>
    have hc : c ≠ ':' := by
      intro hcc
      exact h (by rw [hcc]; exact List.mem_cons_self _ _)
    simp only [splitOnColon]
    rw [if_neg hc, ih fun hct => h (List.mem_cons_of_mem _ hct)]

theorem splitOnColon_append (a r : List Char) (h : ':' ∉ a) :
    splitOnColon (a ++ ':' :: r) = a :: splitOnColon r := by
  induction a with
  | nil =>
    simp [splitOnColon]
  | cons c t ih =>
    have hc : c ≠ ':' := by
      intro hcc
      exact h (by rw [hcc]; exact List.mem_cons_self _ _)
    simp only [List.cons_append, splitOnColon, List.append_eq]
    rw [if_neg hc, ih fun hct => h (List.mem_cons_of_mem _ hct)]

theorem dropWhile_eq_self_of_not (p : Char → Bool) (l : List Char)
    (h : ∀ c ∈ l, p c = false) : l.dropWhile p = l := by
  cases l with
  | nil => rfl
  | cons c t =>
    rw [List.dropWhile_cons, if_neg]
    rw [h c (List.mem_cons_self _ _)]
    simp

theorem trimChars_eq_self (l : List Char) (h : ∀ c ∈ l, c ≠ ' ') : trimChars l = l := by
  have hb : ∀ c ∈ l, (decide (c = ' ')) = false :=
    fun c hc => decide_eq_false (h c hc)
  unfold trimChars
  rw [dropWhile_eq_self_of_not _ _ hb]
  rw [dropWhile_eq_self_of_not _ _ fun c hc => hb c (List.mem_reverse.mp hc)]
  exact List.reverse_reverse l

theorem padTwo_natDigits_no_colon (x : ℕ) : ':' ∉ padTwo (natDigits x) := by
  intro hmem
  exact isDigit_ne_colon (padTwo_digits (natDigits_digits x) ':' hmem) rfl

/-- C8: formatting any whole number of seconds as zero-padded `hh:mm:ss` and
parsing it back recovers the number. -/
theorem C8_format_parse_round_trip (n : ℕ) :
    parseTimeToSeconds (formatTime n) = some n := by
  have hformat : formatTime n =
      padTwo (natDigits (n / 3600)) ++ ':' ::
        (padTwo (natDigits ((n % 3600) / 60)) ++ ':' :: padTwo (natDigits (n % 60))) := rfl
  have hAd := padTwo_digits (natDigits_digits (n / 3600))
  have hBd := padTwo_digits (natDigits_digits ((n % 3600) / 60))
  have hCd := padTwo_digits (natDigits_digits (n % 60))
  have hno_space : ∀ c ∈ formatTime n, c ≠ ' ' := by
    rw [hformat]
    intro c hc
    rcases List.mem_append.mp hc with hc | hc
    · exact isDigit_ne_space (hAd c hc)
    · rcases List.mem_cons.mp hc with rfl | hc
      · decide
      · rcases List.mem_append.mp hc with hc | hc
        · exact isDigit_ne_space (hBd c hc)
        · rcases List.mem_cons.mp hc with rfl | hc
          · decide
          · exact isDigit_ne_space (hCd c hc)
  have hsplit : splitOnColon (formatTime n) =
      [padTwo (natDigits (n / 3600)), padTwo (natDigits ((n % 3600) / 60)),
       padTwo (natDigits (n % 60))] := by
    rw [hformat]
    rw [splitOnColon_append _ _ (padTwo_natDigits_no_colon (n / 3600))]
    rw [splitOnColon_append _ _ (padTwo_natDigits_no_colon ((n % 3600) / 60))]
    rw [splitOnColon_no_colon _ (padTwo_natDigits_no_colon (n % 60))]
  have hne : (formatTime n).isEmpty = false := by
    rw [hformat]
    cases h : padTwo (natDigits (n / 3600)) ++ ':' ::
        (padTwo (natDigits ((n % 3600) / 60)) ++ ':' :: padTwo (natDigits (n % 60))) with
    | nil =>
      rcases List.append_eq_nil.mp h with ⟨_, h2⟩
      exact absurd h2 (List.cons_ne_nil _ _)
    | cons c t => rfl
  have htrimA : trimChars (padTwo (natDigits (n / 3600))) = padTwo (natDigits (n / 3600)) :=
    trimChars_eq_self _ fun c hc => isDigit_ne_space (hAd c hc)
  have htrimB : trimChars (padTwo (natDigits ((n % 3600) / 60))) =
      padTwo (natDigits ((n % 3600) / 60)) :=
    trimChars_eq_self _ fun c hc => isDigit_ne_space (hBd c hc)
  have htrimC : trimChars (padTwo (natDigits (n % 60))) = padTwo (natDigits (n % 60)) :=
    trimChars_eq_self _ fun c hc => isDigit_ne_space (hCd c hc)
  unfold parseTimeToSeconds
  simp only [trimChars_eq_self _ hno_space, hne, Bool.false_eq_true, if_false, hsplit,
    List.map_cons, List.map_nil, htrimA, htrimB, htrimC, List.length_cons, List.length_nil]
  rw [if_neg (by omega)]
  rw [jsNumber_padTwo_natDigits, jsNumber_padTwo_natDigits, jsNumber_padTwo_natDigits]
  show some (n / 3600 * 3600 + n % 3600 / 60 * 60 + n % 60) = some n
  congr 1
  omega

end VideoSplitter
